import Mathlib

/-!
Verification of the text-rewriting pipeline of `fix-tw.py`.

The script reads one file, applies three substitution passes to its text and
writes the result back:

1. `re.sub(r'classList\.tw-add\(', 'classList.add(', content)`
2. `re.sub(r'classList\.tw-remove\(', 'classList.remove(', content)`
3. `re.sub(r'className = "([^"]+)"', prefix_classes, content)` where the
   callback splits the captured group on whitespace, prepends `tw-` to every
   token that does not already start with `tw-`, and rejoins with single
   spaces.

Text is modelled as `List Char`.  The two literal substitutions are modelled
by `replaceSub` (leftmost, non-overlapping scanning, exactly the semantics of
`re.sub` with a literal pattern).  The third pass is modelled by
`subClassName`, whose match step `matchClassName` mirrors the regex: the 13
literal characters `className = "`, then a maximal nonempty run of
non-quote characters, then a closing quote.  All scanning functions are
written with a fuel argument equal to the length of the text so that they are
structurally recursive and evaluate inside the kernel.
-/

namespace FixTw

/-- Whitespace test matching Python's `str.split()` default separator set
(`str.isspace`): ASCII whitespace, the C1 separator block and the Unicode
space characters. -/
def isWs (c : Char) : Bool :=
  c == ' ' || c == '\t' || c == '\n' || c == '\r' || c == '\x0b' || c == '\x0c' ||
  c == '\x1c' || c == '\x1d' || c == '\x1e' || c == '\x1f' || c == '\x85' || c == '\xa0' ||
  c == ' ' || c == ' ' || c == ' ' || c == ' ' || c == ' ' ||
  c == ' ' || c == ' ' || c == ' ' || c == ' ' || c == ' ' ||
  c == ' ' || c == ' ' || c == ' ' || c == ' ' || c == ' ' ||
  c == ' ' || c == '　'

/-- Negation of `isWs`, the token characters of `str.split()`. -/
def nonWs (c : Char) : Bool := !(isWs c)

/-- The character class `[^"]` of the regex on line 17 of `fix-tw.py`. -/
def nonQuote (c : Char) : Bool := c != '"'

/-- The literal pattern `classList.tw-add(` of line 7 of `fix-tw.py`. -/
def patTwAdd : List Char :=
  ['c','l','a','s','s','L','i','s','t','.','t','w','-','a','d','d','(']

/-- The replacement `classList.add(` of line 7 of `fix-tw.py`. -/
def replAdd : List Char :=
  ['c','l','a','s','s','L','i','s','t','.','a','d','d','(']

/-- The literal pattern `classList.tw-remove(` of line 8 of `fix-tw.py`. -/
def patTwRemove : List Char :=
  ['c','l','a','s','s','L','i','s','t','.','t','w','-','r','e','m','o','v','e','(']

/-- The replacement `classList.remove(` of line 8 of `fix-tw.py`. -/
def replRemove : List Char :=
  ['c','l','a','s','s','L','i','s','t','.','r','e','m','o','v','e','(']

/-- The 13 fixed characters `className = "` that the regex of line 17 must
see before the captured group. -/
def lit13 : List Char :=
  ['c','l','a','s','s','N','a','m','e',' ','=',' ','"']

/-- The first 12 characters of `lit13`, everything before the opening quote. -/
def lit12 : List Char :=
  ['c','l','a','s','s','N','a','m','e',' ','=',' ']

/-- `lit13` without its leading character. -/
def l13tail : List Char :=
  ['l','a','s','s','N','a','m','e',' ','=',' ','"']

/-- The namespace marker `tw-` prepended by `prefix_classes`. -/
def tw : List Char := ['t','w','-']

/-- Scanning engine of `re.sub` with a literal pattern: at each position, if
the pattern is a prefix of the remaining text it is replaced and scanning
continues after the consumed characters, otherwise one character is copied.
One fuel unit is spent per scanned position; fuel equal to the length of the
text suffices. -/
def replaceSubGo (pat repl : List Char) : Nat → List Char → List Char
  | _, [] => []
  | 0, s => s
  | fuel+1, c :: rest =>
    if pat <+: (c :: rest) then
      repl ++ replaceSubGo pat repl fuel (rest.drop (pat.length - 1))
    else
      c :: replaceSubGo pat repl fuel rest

/-- Leftmost, non-overlapping replacement of every occurrence of the literal
pattern `pat` by `repl`, the semantics of lines 7 and 8 of `fix-tw.py`. -/
def replaceSub (pat repl s : List Char) : List Char :=
  replaceSubGo pat repl s.length s

/-- Match of the regex `className = "([^"]+)"` at the start of `s`: the 13
literal characters, then the captured group (a maximal nonempty run of
non-quote characters) and the closing quote.  Returns the captured group and
the text after the match. -/
def matchClassName (s : List Char) : Option (List Char × List Char) :=
  if lit13 <+: s then
    match (s.drop 13).takeWhile nonQuote, (s.drop 13).dropWhile nonQuote with
    | c :: cl, _ :: rest => some (c :: cl, rest)
    | _, _ => none
  else none

/-- Python's `classes.split()`: split on runs of whitespace, dropping empty
pieces.  Fuelled scanning, one unit per dispatched character block. -/
def splitWsGo : Nat → List Char → List (List Char)
  | _, [] => []
  | 0, _ => []
  | fuel+1, c :: rest =>
    if isWs c then splitWsGo fuel rest
    else (c :: rest.takeWhile nonWs) :: splitWsGo fuel (rest.dropWhile nonWs)

/-- `classes.split()` of line 14 of `fix-tw.py`. -/
def splitWs (s : List Char) : List (List Char) := splitWsGo s.length s

/-- `' '.join(...)`: interleave a single space between the pieces. -/
def joinSp : List (List Char) → List Char
  | [] => []
  | [t] => t
  | t :: u :: ts => t ++ ' ' :: joinSp (u :: ts)

/-- `'tw-' + c if not c.startswith('tw-') else c` of line 14 of `fix-tw.py`. -/
def prefixToken (t : List Char) : List Char :=
  if tw <+: t then t else tw ++ t

/-- The joined class string built by the callback: split, mark every token,
rejoin with single spaces. -/
def prefixedBody (classes : List Char) : List Char :=
  joinSp ((splitWs classes).map prefixToken)

/-- The callback `prefix_classes` of lines 11-15 of `fix-tw.py`: it returns
the f-string `className = "{prefixed}"`. -/
def prefix_classes (classes : List Char) : List Char :=
  lit13 ++ prefixedBody classes ++ ['"']

/-- Scanning engine of the third `re.sub`: at each position try the regex
match; on success substitute the callback result and continue after the
match, otherwise copy one character. -/
def subClassNameGo : Nat → List Char → List Char
  | _, [] => []
  | 0, s => s
  | fuel+1, c :: rest =>
    match matchClassName (c :: rest) with
    | some (cl, after) => prefix_classes cl ++ subClassNameGo fuel after
    | none => c :: subClassNameGo fuel rest

/-- The third pass, `re.sub(r'className = "([^"]+)"', prefix_classes, content)`. -/
def subClassName (s : List Char) : List Char := subClassNameGo s.length s

/-- Whether the className regex matches anywhere in the text. -/
def hasCNM : List Char → Bool
  | [] => false
  | c :: rest => (matchClassName (c :: rest)).isSome || hasCNM rest

/-- The complete transformation pipeline of `fix-tw.py`, lines 7-17: the
tw-add fix, then the tw-remove fix, then the className prefixing.  All three
passes are applied unconditionally, in this order. -/
def pipeline (s : List Char) : List Char :=
  subClassName (replaceSub patTwRemove replRemove (replaceSub patTwAdd replAdd s))

/-- Number of positions of `s` at which the pattern `pat` occurs. -/
def countOcc (pat : List Char) : List Char → Nat
  | [] => 0
  | c :: rest => (if pat <+: (c :: rest) then 1 else 0) + countOcc pat rest

/-- The literal `className = ""` (an empty class string), which the regex of
line 17 can never match because `[^"]+` needs at least one character. -/
def emptyClassName : List Char :=
  ['c','l','a','s','s','N','a','m','e',' ','=',' ','"','"']

/-- The state of the single file `src/index.ts` that the script reads and
rewrites: `none` models a file that cannot be opened for reading. -/
structure FS where
  content : Option (List Char)

/-- The confirmation line printed on line 22 of `fix-tw.py`. -/
def successMsg : String := "✓ Fixed Tailwind prefixes"

/-- The whole program run: read the file (lines 3-4); on failure abort with
no write and no message; otherwise transform in memory (lines 7-17), write
the result back to the same path (lines 19-20) and print the confirmation
(line 22). -/
def runProgram (fs : FS) : FS × Option String :=
  match fs.content with
  | none => (fs, none)
  | some text => ({ content := some (pipeline text) }, some successMsg)

/-! ### Generic facts about prefixes and occurrence counts -/

theorem pfx_cons_ne {p : List Char} {hc d : Char} {pt z : List Char}
    (hp : p = hc :: pt) (hne : d ≠ hc) : ¬ p <+: (d :: z) := by
  subst hp
  intro hcon
  rw [List.cons_prefix_cons] at hcon
  exact hne hcon.1.symm

theorem pfx_append_cons_iff {p : List Char} {b : Char} (hb : b ∉ p) :
    ∀ {w u : List Char}, (p <+: (w ++ b :: u) ↔ p <+: w) := by
  induction p with
  | nil => intro w u; simp [List.nil_prefix]
  | cons a p' ih =>
    intro w u
    cases w with
    | nil =>
      have h1 : ¬ ((a :: p') <+: ([] ++ b :: u)) := by
        intro hcon
        rw [List.nil_append, List.cons_prefix_cons] at hcon
        exact hb (by rw [← hcon.1]; exact List.mem_cons_self a p')
      have h2 : ¬ ((a :: p') <+: ([] : List Char)) := by simp
      exact iff_of_false h1 h2
    | cons w0 w' =>
      have hb' : b ∉ p' := fun hm => hb (List.mem_cons_of_mem _ hm)
      rw [List.cons_append, List.cons_prefix_cons, List.cons_prefix_cons, ih hb']

theorem pfx_append_not_of_not {p q u : List Char}
    (h1 : ¬ p <+: q) (h2 : ¬ q <+: p) : ¬ p <+: (q ++ u) := by
  induction p generalizing q with
  | nil => exact absurd List.nil_prefix h1
  | cons a p' ih =>
    cases q with
    | nil => exact absurd List.nil_prefix h2
    | cons b q' =>
      intro hcon
      rw [List.cons_append, List.cons_prefix_cons] at hcon
      obtain ⟨hab, hcon'⟩ := hcon
      subst hab
      refine ih (q := q') ?_ ?_ hcon'
      · intro hp'
        exact h1 (by rw [List.cons_prefix_cons]; exact ⟨rfl, hp'⟩)
      · intro hq'
        exact h2 (by rw [List.cons_prefix_cons]; exact ⟨rfl, hq'⟩)

theorem countOcc_nil (p : List Char) : countOcc p [] = 0 := rfl

theorem countOcc_cons (p : List Char) (c : Char) (rest : List Char) :
    countOcc p (c :: rest) = (if p <+: (c :: rest) then 1 else 0) + countOcc p rest := rfl

theorem countOcc_cons_of_head_ne {p : List Char} {hc : Char} {pt : List Char}
    (hp : p = hc :: pt) {c : Char} (hne : c ≠ hc) (rest : List Char) :
    countOcc p (c :: rest) = countOcc p rest := by
  rw [countOcc_cons, if_neg (pfx_cons_ne hp hne), Nat.zero_add]

theorem countOcc_append_cons {p x u : List Char} {b : Char} (hb : b ∉ p) :
    countOcc p (x ++ b :: u) = countOcc p x + countOcc p (b :: u) := by
  induction x with
  | nil => simp [countOcc_nil]
  | cons a x' ih =>
    simp only [List.cons_append, countOcc_cons, ih]
    have hiff : (p <+: (a :: (x' ++ b :: u))) ↔ (p <+: (a :: x')) := by
      have h := pfx_append_cons_iff (p := p) (b := b) hb (w := a :: x') (u := u)
      simpa using h
    simp only [hiff]
    omega

theorem countOcc_append_no_head {p : List Char} {hc : Char} {pt : List Char}
    (hp : p = hc :: pt) {x : List Char} (hx : ∀ a ∈ x, a ≠ hc) (u : List Char) :
    countOcc p (x ++ u) = countOcc p u := by
  induction x with
  | nil => simp
  | cons a x' ih =>
    rw [List.cons_append, countOcc_cons_of_head_ne hp (hx a (List.mem_cons_self a x'))]
    exact ih (fun a ha => hx a (List.mem_cons_of_mem _ ha))

theorem countOcc_zero_of_no_head {p : List Char} {hc : Char} {pt : List Char}
    (hp : p = hc :: pt) {v : List Char} (hv : ∀ a ∈ v, a ≠ hc) : countOcc p v = 0 := by
  have h := countOcc_append_no_head hp hv []
  rw [List.append_nil] at h
  rw [h, countOcc_nil]

/-! ### Unfolding lemmas for the fuelled scanner `replaceSub` -/

theorem replaceSubGo_fuel (pat repl : List Char) :
    ∀ n fuel (u : List Char), fuel ≤ n → u.length ≤ fuel →
      replaceSubGo pat repl fuel u = replaceSub pat repl u := by
  intro n
  induction n with
  | zero =>
    intro fuel u hf hu
    obtain rfl : fuel = 0 := Nat.le_zero.mp hf
    obtain rfl : u = [] := List.length_eq_zero.mp (Nat.le_zero.mp hu)
    rfl
  | succ n ih =>
    intro fuel u hf hu
    match fuel, u with
    | fuel, [] => cases fuel <;> rfl
    | 0, c :: rest => simp at hu
    | f+1, c :: rest =>
      have hf' : f ≤ n := Nat.le_of_succ_le_succ hf
      have hrest : rest.length ≤ f := by
        simp only [List.length_cons] at hu
        omega
      have hXlen : (rest.drop (pat.length - 1)).length ≤ rest.length := by
        rw [List.length_drop]
        omega
      show replaceSubGo pat repl (f+1) (c :: rest) = replaceSub pat repl (c :: rest)
      have hR : replaceSub pat repl (c :: rest)
          = replaceSubGo pat repl (rest.length + 1) (c :: rest) := rfl
      rw [hR]
      by_cases hm : pat <+: (c :: rest)
      · simp only [replaceSubGo, if_pos hm]
        rw [ih f _ hf' (le_trans hXlen hrest),
            ih rest.length _ (le_trans hrest hf') hXlen]
      · simp only [replaceSubGo, if_neg hm]
        rw [ih f rest hf' hrest, ih rest.length rest (le_trans hrest hf') le_rfl]

theorem replaceSub_nil (pat repl : List Char) : replaceSub pat repl [] = [] := rfl

theorem replaceSub_cons_pos {pat : List Char} (repl : List Char) {c : Char} {rest : List Char}
    (hpat : pat ≠ []) (h : pat <+: (c :: rest)) :
    replaceSub pat repl (c :: rest)
      = repl ++ replaceSub pat repl (List.drop pat.length (c :: rest)) := by
  obtain ⟨p0, pt, rfl⟩ : ∃ p0 pt, pat = p0 :: pt := by
    obtain ⟨b, L, hbl⟩ := List.exists_cons_of_ne_nil hpat
    exact ⟨b, L, hbl⟩
  have h1 : replaceSub (p0 :: pt) repl (c :: rest)
      = replaceSubGo (p0 :: pt) repl (rest.length + 1) (c :: rest) := rfl
  rw [h1]
  simp only [replaceSubGo, if_pos h]
  have h2 : (p0 :: pt).length - 1 = pt.length := by simp
  rw [h2]
  have h3 : List.drop (p0 :: pt).length (c :: rest) = List.drop pt.length rest := by
    simp only [List.length_cons, List.drop_succ_cons]
  rw [h3]
  rw [replaceSubGo_fuel (p0 :: pt) repl rest.length rest.length (rest.drop pt.length) le_rfl
      (by rw [List.length_drop]; omega)]

theorem replaceSub_cons_neg {pat : List Char} (repl : List Char) {c : Char} {rest : List Char}
    (h : ¬ pat <+: (c :: rest)) :
    replaceSub pat repl (c :: rest) = c :: replaceSub pat repl rest := by
  have h1 : replaceSub pat repl (c :: rest)
      = replaceSubGo pat repl (rest.length + 1) (c :: rest) := rfl
  rw [h1]
  simp only [replaceSubGo, if_neg h]
  rw [replaceSubGo_fuel pat repl rest.length rest.length rest le_rfl le_rfl]

/-! ### Counting occurrences through `replaceSub`

All four patterns of the script start with the character `c` and contain it
nowhere else, so occurrences of two such patterns at distinct positions can
never overlap.  The lemmas below exploit exactly that anchoring. -/

theorem replace_pfx_iff {hc : Char} {pt rt : List Char} :
    ∀ n (u q : List Char), hc ∉ q → u.length ≤ n →
      ((q <+: replaceSub (hc :: pt) (hc :: rt) u) ↔ q <+: u) := by
  intro n
  induction n with
  | zero =>
    intro u q hq hu
    obtain rfl : u = [] := List.length_eq_zero.mp (Nat.le_zero.mp hu)
    rw [replaceSub_nil]
  | succ n ih =>
    intro u q hq hu
    cases u with
    | nil => rw [replaceSub_nil]
    | cons c rest =>
      by_cases hm : (hc :: pt) <+: (c :: rest)
      · obtain ⟨v, hv⟩ := id hm
        rw [replaceSub_cons_pos _ (List.cons_ne_nil _ _) hm]
        cases q with
        | nil => simp [List.nil_prefix]
        | cons q0 qt =>
          have hq0 : q0 ≠ hc := by
            rintro rfl
            exact hq (List.mem_cons_self _ _)
          rw [List.cons_append] at hv
          have hchc : c = hc := by
            injection hv with h1 h2
            exact h1.symm
          have hL : ¬ ((q0 :: qt) <+: ((hc :: rt) ++
              replaceSub (hc :: pt) (hc :: rt) (List.drop (hc :: pt).length (c :: rest)))) := by
            rw [List.cons_append]
            exact pfx_cons_ne rfl (fun h => hq0 h.symm)
          have hR : ¬ ((q0 :: qt) <+: (c :: rest)) := by
            subst hchc
            exact pfx_cons_ne rfl (fun h => hq0 h.symm)
          exact iff_of_false hL hR
      · rw [replaceSub_cons_neg _ hm]
        cases q with
        | nil => simp [List.nil_prefix]
        | cons q0 qt =>
          rw [List.cons_prefix_cons, List.cons_prefix_cons]
          have hq' : hc ∉ qt := fun h => hq (List.mem_cons_of_mem _ h)
          have hrl : rest.length ≤ n := by
            simp only [List.length_cons] at hu
            omega
          rw [ih rest qt hq' hrl]

theorem countOcc_replaceSub_pat {hc : Char} {pt rt : List Char}
    (hpt : hc ∉ pt) (hrt : hc ∉ rt)
    (hpr : ¬ (hc :: pt) <+: (hc :: rt)) (hrp : ¬ (hc :: rt) <+: (hc :: pt)) :
    ∀ u, countOcc (hc :: pt) (replaceSub (hc :: pt) (hc :: rt) u) = 0 := by
  have main : ∀ n (u : List Char), u.length ≤ n →
      countOcc (hc :: pt) (replaceSub (hc :: pt) (hc :: rt) u) = 0 := by
    intro n
    induction n with
    | zero =>
      intro u hu
      obtain rfl : u = [] := List.length_eq_zero.mp (Nat.le_zero.mp hu)
      rw [replaceSub_nil, countOcc_nil]
    | succ n ih =>
      intro u hu
      cases u with
      | nil => rw [replaceSub_nil, countOcc_nil]
      | cons c rest =>
        by_cases hm : (hc :: pt) <+: (c :: rest)
        · obtain ⟨v, hv⟩ := id hm
          rw [replaceSub_cons_pos _ (List.cons_ne_nil _ _) hm]
          have hdrop : List.drop (hc :: pt).length (c :: rest) = v := by
            rw [← hv]
            exact List.drop_left _ _
          rw [hdrop]
          have hvlen : v.length ≤ n := by
            have hl := congrArg List.length hv
            simp only [List.length_append, List.length_cons] at hl hu
            omega
          have hT := ih v hvlen
          have h0 : ¬ ((hc :: pt) <+: ((hc :: rt) ++
              replaceSub (hc :: pt) (hc :: rt) v)) := pfx_append_not_of_not hpr hrp
          rw [List.cons_append] at h0 ⊢
          rw [countOcc_cons, if_neg h0, Nat.zero_add,
              countOcc_append_no_head rfl (fun a ha => by rintro rfl; exact hrt ha), hT]
        · rw [replaceSub_cons_neg _ hm]
          have hrl : rest.length ≤ n := by
            simp only [List.length_cons] at hu
            omega
          have hT := ih rest hrl
          rw [countOcc_cons]
          by_cases hch : c = hc
          · subst hch
            have hnp : ¬ ((c :: pt) <+: (c :: replaceSub (c :: pt) (c :: rt) rest)) := by
              rw [List.cons_prefix_cons]
              rintro ⟨-, hp⟩
              exact hm (by
                rw [List.cons_prefix_cons]
                exact ⟨rfl, (replace_pfx_iff rest.length rest pt hpt le_rfl).mp hp⟩)
            rw [if_neg hnp, hT]
          · rw [if_neg (pfx_cons_ne rfl hch), hT]
  exact fun u => main u.length u le_rfl

theorem countOcc_replaceSub_repl {hc : Char} {pt rt : List Char}
    (hpt : hc ∉ pt) (hrt : hc ∉ rt)
    (hpr : ¬ (hc :: pt) <+: (hc :: rt)) (hrp : ¬ (hc :: rt) <+: (hc :: pt)) :
    ∀ u, countOcc (hc :: rt) (replaceSub (hc :: pt) (hc :: rt) u)
      = countOcc (hc :: rt) u + countOcc (hc :: pt) u := by
  have main : ∀ n (u : List Char), u.length ≤ n →
      countOcc (hc :: rt) (replaceSub (hc :: pt) (hc :: rt) u)
        = countOcc (hc :: rt) u + countOcc (hc :: pt) u := by
    intro n
    induction n with
    | zero =>
      intro u hu
      obtain rfl : u = [] := List.length_eq_zero.mp (Nat.le_zero.mp hu)
      rw [replaceSub_nil]
      simp [countOcc_nil]
    | succ n ih =>
      intro u hu
      cases u with
      | nil =>
        rw [replaceSub_nil]
        simp [countOcc_nil]
      | cons c rest =>
        by_cases hm : (hc :: pt) <+: (c :: rest)
        · obtain ⟨v, hv⟩ := id hm
          rw [replaceSub_cons_pos _ (List.cons_ne_nil _ _) hm]
          have hdrop : List.drop (hc :: pt).length (c :: rest) = v := by
            rw [← hv]
            exact List.drop_left _ _
          rw [hdrop]
          have hvlen : v.length ≤ n := by
            have hl := congrArg List.length hv
            simp only [List.length_append, List.length_cons] at hl hu
            omega
          have hT := ih v hvlen
          set T := replaceSub (hc :: pt) (hc :: rt) v with hTdef
          have hposL : (hc :: rt) <+: (hc :: (rt ++ T)) := by
            rw [List.cons_prefix_cons]
            exact ⟨rfl, List.prefix_append rt T⟩
          have hL : countOcc (hc :: rt) ((hc :: rt) ++ T) = 1 + countOcc (hc :: rt) T := by
            rw [List.cons_append, countOcc_cons, if_pos hposL,
                countOcc_append_no_head rfl (fun a ha => by rintro rfl; exact hrt ha) T]
          have hnegR : ¬ (hc :: rt) <+: (hc :: (pt ++ v)) := by
            rw [← List.cons_append]
            exact pfx_append_not_of_not hrp hpr
          have hR1 : countOcc (hc :: rt) (c :: rest) = countOcc (hc :: rt) v := by
            rw [← hv, List.cons_append, countOcc_cons, if_neg hnegR, Nat.zero_add,
                countOcc_append_no_head rfl (fun a ha => by rintro rfl; exact hpt ha) v]
          have hposR : (hc :: pt) <+: (hc :: (pt ++ v)) := by
            rw [← List.cons_append]
            exact List.prefix_append _ _
          have hR2 : countOcc (hc :: pt) (c :: rest) = 1 + countOcc (hc :: pt) v := by
            rw [← hv, List.cons_append, countOcc_cons, if_pos hposR,
                countOcc_append_no_head rfl (fun a ha => by rintro rfl; exact hpt ha) v]
          rw [hL, hT, hR1, hR2]
          omega
        · rw [replaceSub_cons_neg _ hm]
          have hrl : rest.length ≤ n := by
            simp only [List.length_cons] at hu
            omega
          have hT := ih rest hrl
          rw [countOcc_cons, countOcc_cons (hc :: rt) c rest,
              countOcc_cons (hc :: pt) c rest, if_neg hm, hT]
          by_cases hch : c = hc
          · subst hch
            have hiff : ((c :: rt) <+: (c :: replaceSub (c :: pt) (c :: rt) rest))
                ↔ ((c :: rt) <+: (c :: rest)) := by
              rw [List.cons_prefix_cons, List.cons_prefix_cons,
                  replace_pfx_iff rest.length rest rt hrt le_rfl]
            simp only [hiff]
            omega
          · rw [if_neg (pfx_cons_ne rfl hch), if_neg (pfx_cons_ne rfl hch)]
            omega
  exact fun u => main u.length u le_rfl

theorem countOcc_replaceSub_other {hc : Char} {pt rt qt : List Char}
    (hpt : hc ∉ pt) (hrt : hc ∉ rt) (hqt : hc ∉ qt)
    (hqp : ¬ (hc :: qt) <+: (hc :: pt)) (hpq : ¬ (hc :: pt) <+: (hc :: qt))
    (hqr : ¬ (hc :: qt) <+: (hc :: rt)) (hrq : ¬ (hc :: rt) <+: (hc :: qt)) :
    ∀ u, countOcc (hc :: qt) (replaceSub (hc :: pt) (hc :: rt) u)
      = countOcc (hc :: qt) u := by
  have main : ∀ n (u : List Char), u.length ≤ n →
      countOcc (hc :: qt) (replaceSub (hc :: pt) (hc :: rt) u) = countOcc (hc :: qt) u := by
    intro n
    induction n with
    | zero =>
      intro u hu
      obtain rfl : u = [] := List.length_eq_zero.mp (Nat.le_zero.mp hu)
      rw [replaceSub_nil]
    | succ n ih =>
      intro u hu
      cases u with
      | nil => rw [replaceSub_nil]
      | cons c rest =>
        by_cases hm : (hc :: pt) <+: (c :: rest)
        · obtain ⟨v, hv⟩ := id hm
          rw [replaceSub_cons_pos _ (List.cons_ne_nil _ _) hm]
          have hdrop : List.drop (hc :: pt).length (c :: rest) = v := by
            rw [← hv]
            exact List.drop_left _ _
          rw [hdrop]
          have hvlen : v.length ≤ n := by
            have hl := congrArg List.length hv
            simp only [List.length_append, List.length_cons] at hl hu
            omega
          have hT := ih v hvlen
          set T := replaceSub (hc :: pt) (hc :: rt) v with hTdef
          have hnegL : ¬ (hc :: qt) <+: (hc :: (rt ++ T)) := by
            rw [← List.cons_append]
            exact pfx_append_not_of_not hqr hrq
          have hL : countOcc (hc :: qt) ((hc :: rt) ++ T) = countOcc (hc :: qt) T := by
            rw [List.cons_append, countOcc_cons, if_neg hnegL, Nat.zero_add,
                countOcc_append_no_head rfl (fun a ha => by rintro rfl; exact hrt ha) T]
          have hnegR : ¬ (hc :: qt) <+: (hc :: (pt ++ v)) := by
            rw [← List.cons_append]
            exact pfx_append_not_of_not hqp hpq
          have hR : countOcc (hc :: qt) (c :: rest) = countOcc (hc :: qt) v := by
            rw [← hv, List.cons_append, countOcc_cons, if_neg hnegR, Nat.zero_add,
                countOcc_append_no_head rfl (fun a ha => by rintro rfl; exact hpt ha) v]
          rw [hL, hT, hR]
        · rw [replaceSub_cons_neg _ hm]
          have hrl : rest.length ≤ n := by
            simp only [List.length_cons] at hu
            omega
          have hT := ih rest hrl
          rw [countOcc_cons, countOcc_cons (hc :: qt) c rest, hT]
          by_cases hch : c = hc
          · subst hch
            have hiff : ((c :: qt) <+: (c :: replaceSub (c :: pt) (c :: rt) rest))
                ↔ ((c :: qt) <+: (c :: rest)) := by
              rw [List.cons_prefix_cons, List.cons_prefix_cons,
                  replace_pfx_iff rest.length rest qt hqt le_rfl]
            simp only [hiff]
          · rw [if_neg (pfx_cons_ne rfl hch), if_neg (pfx_cons_ne rfl hch)]
  exact fun u => main u.length u le_rfl

theorem replaceSub_id_of_countOcc_zero {pat : List Char} (repl : List Char) :
    ∀ u, countOcc pat u = 0 → replaceSub pat repl u = u := by
  intro u
  induction u with
  | nil => intro _; rfl
  | cons c rest ih =>
    intro h
    rw [countOcc_cons] at h
    by_cases hm : pat <+: (c :: rest)
    · rw [if_pos hm] at h
      omega
    · rw [if_neg hm, Nat.zero_add] at h
      rw [replaceSub_cons_neg _ hm, ih h]

theorem replaceSub_append_no_head {hc : Char} {pt : List Char} (repl : List Char)
    {x : List Char} (hx : ∀ a ∈ x, a ≠ hc) (u : List Char) :
    replaceSub (hc :: pt) repl (x ++ u) = x ++ replaceSub (hc :: pt) repl u := by
  induction x with
  | nil => rfl
  | cons a x' ih =>
    rw [List.cons_append,
        replaceSub_cons_neg _ (pfx_cons_ne rfl (hx a (List.mem_cons_self a x'))),
        ih (fun b hb => hx b (List.mem_cons_of_mem _ hb)), List.cons_append]

/-! ### `takeWhile` and `dropWhile` helpers -/

theorem mem_takeWhile_p {p : Char → Bool} {a : Char} :
    ∀ {l : List Char}, a ∈ l.takeWhile p → p a = true := by
  intro l
  induction l with
  | nil => intro h; simp [List.takeWhile] at h
  | cons b l' ih =>
    intro h
    rw [List.takeWhile_cons] at h
    by_cases hb : p b = true
    · rw [if_pos hb] at h
      rcases List.mem_cons.mp h with rfl | hmem
      · exact hb
      · exact ih hmem
    · rw [if_neg hb] at h
      simp at h

theorem dropWhile_head_false {p : Char → Bool} {b : Char} {u : List Char} :
    ∀ {l : List Char}, l.dropWhile p = b :: u → p b = false := by
  intro l
  induction l with
  | nil => intro h; simp [List.dropWhile] at h
  | cons a l' ih =>
    intro h
    rw [List.dropWhile_cons] at h
    by_cases ha : p a = true
    · rw [if_pos ha] at h
      exact ih h
    · rw [if_neg ha] at h
      injection h with h1 h2
      rw [← h1]
      exact Bool.not_eq_true _ ▸ ha

theorem takeWhile_all {p : Char → Bool} :
    ∀ {l : List Char}, (∀ a ∈ l, p a = true) → l.takeWhile p = l ∧ l.dropWhile p = [] := by
  intro l
  induction l with
  | nil => intro _; exact ⟨rfl, rfl⟩
  | cons a l' ih =>
    intro h
    have ha : p a = true := h a (List.mem_cons_self a l')
    have ih' := ih (fun b hb => h b (List.mem_cons_of_mem _ hb))
    rw [List.takeWhile_cons, List.dropWhile_cons, if_pos ha, if_pos ha, ih'.1, ih'.2]
    exact ⟨rfl, rfl⟩

theorem takeWhile_block {p : Char → Bool} {b : Char} (hb : p b = false) :
    ∀ {x : List Char} (y : List Char), (∀ a ∈ x, p a = true) →
      (x ++ b :: y).takeWhile p = x ∧ (x ++ b :: y).dropWhile p = b :: y := by
  intro x
  induction x with
  | nil =>
    intro y _
    rw [List.nil_append, List.takeWhile_cons, List.dropWhile_cons, if_neg, if_neg]
    · exact ⟨rfl, rfl⟩
    · rw [hb]; simp
    · rw [hb]; simp
  | cons a x' ih =>
    intro y h
    have ha : p a = true := h a (List.mem_cons_self a x')
    have ih' := ih y (fun c hc => h c (List.mem_cons_of_mem _ hc))
    rw [List.cons_append, List.takeWhile_cons, List.dropWhile_cons, if_pos ha, if_pos ha,
        ih'.1, ih'.2]
    exact ⟨rfl, rfl⟩

/-! ### Unfolding lemmas for the fuelled splitter `splitWs` -/

theorem splitWsGo_fuel :
    ∀ n fuel (u : List Char), fuel ≤ n → u.length ≤ fuel →
      splitWsGo fuel u = splitWs u := by
  intro n
  induction n with
  | zero =>
    intro fuel u hf hu
    obtain rfl : fuel = 0 := Nat.le_zero.mp hf
    obtain rfl : u = [] := List.length_eq_zero.mp (Nat.le_zero.mp hu)
    rfl
  | succ n ih =>
    intro fuel u hf hu
    match fuel, u with
    | fuel, [] => cases fuel <;> rfl
    | 0, c :: rest => simp at hu
    | f+1, c :: rest =>
      have hf' : f ≤ n := Nat.le_of_succ_le_succ hf
      have hrest : rest.length ≤ f := by
        simp only [List.length_cons] at hu
        omega
      have hdr : (rest.dropWhile nonWs).length ≤ rest.length :=
        (List.dropWhile_sublist nonWs).length_le
      show splitWsGo (f+1) (c :: rest) = splitWs (c :: rest)
      have hR : splitWs (c :: rest) = splitWsGo (rest.length + 1) (c :: rest) := rfl
      rw [hR]
      by_cases hc : isWs c = true
      · simp only [splitWsGo, if_pos hc]
        rw [ih f rest hf' hrest, ih rest.length rest (le_trans hrest hf') le_rfl]
      · simp only [splitWsGo, if_neg hc]
        rw [ih f _ hf' (le_trans hdr hrest),
            ih rest.length _ (le_trans hrest hf') hdr]

theorem splitWs_nil : splitWs [] = [] := rfl

theorem splitWs_ws {c : Char} (h : isWs c = true) (rest : List Char) :
    splitWs (c :: rest) = splitWs rest := by
  have h1 : splitWs (c :: rest) = splitWsGo (rest.length + 1) (c :: rest) := rfl
  rw [h1]
  simp only [splitWsGo, if_pos h]
  exact splitWsGo_fuel rest.length rest.length rest le_rfl le_rfl

theorem splitWs_tok {c : Char} (h : isWs c = false) (rest : List Char) :
    splitWs (c :: rest)
      = (c :: rest.takeWhile nonWs) :: splitWs (rest.dropWhile nonWs) := by
  have h1 : splitWs (c :: rest) = splitWsGo (rest.length + 1) (c :: rest) := rfl
  rw [h1]
  simp only [splitWsGo, h]
  rw [splitWsGo_fuel rest.length rest.length _ le_rfl (List.dropWhile_sublist nonWs).length_le]
  simp

/-! ### Structure of the token list produced by `splitWs` -/

theorem splitWs_sound :
    ∀ u, ∀ t ∈ splitWs u, t ≠ [] ∧ ∀ a ∈ t, nonWs a = true := by
  have main : ∀ n (u : List Char), u.length ≤ n →
      ∀ t ∈ splitWs u, t ≠ [] ∧ ∀ a ∈ t, nonWs a = true := by
    intro n
    induction n with
    | zero =>
      intro u hu
      obtain rfl : u = [] := List.length_eq_zero.mp (Nat.le_zero.mp hu)
      intro t ht
      simp [splitWs_nil] at ht
    | succ n ih =>
      intro u hu
      cases u with
      | nil => intro t ht; simp [splitWs_nil] at ht
      | cons c rest =>
        have hrest : rest.length ≤ n := by
          simp only [List.length_cons] at hu
          omega
        by_cases hc : isWs c = true
        · rw [splitWs_ws hc]
          exact ih rest hrest
        · rw [splitWs_tok (Bool.not_eq_true _ ▸ hc) rest]
          intro t ht
          rcases List.mem_cons.mp ht with rfl | hmem
          · refine ⟨List.cons_ne_nil _ _, ?_⟩
            intro a ha
            rcases List.mem_cons.mp ha with rfl | ha'
            · simp [nonWs, Bool.not_eq_true _ ▸ hc]
            · exact mem_takeWhile_p ha'
          · exact ih (rest.dropWhile nonWs)
              (le_trans (List.dropWhile_sublist nonWs).length_le hrest) t hmem
  exact fun u => main u.length u le_rfl

theorem splitWs_subset :
    ∀ u, ∀ t ∈ splitWs u, ∀ a ∈ t, a ∈ u := by
  have main : ∀ n (u : List Char), u.length ≤ n →
      ∀ t ∈ splitWs u, ∀ a ∈ t, a ∈ u := by
    intro n
    induction n with
    | zero =>
      intro u hu
      obtain rfl : u = [] := List.length_eq_zero.mp (Nat.le_zero.mp hu)
      intro t ht
      simp [splitWs_nil] at ht
    | succ n ih =>
      intro u hu
      cases u with
      | nil => intro t ht; simp [splitWs_nil] at ht
      | cons c rest =>
        have hrest : rest.length ≤ n := by
          simp only [List.length_cons] at hu
          omega
        by_cases hc : isWs c = true
        · rw [splitWs_ws hc]
          intro t ht a ha
          exact List.mem_cons_of_mem _ (ih rest hrest t ht a ha)
        · rw [splitWs_tok (Bool.not_eq_true _ ▸ hc) rest]
          intro t ht a ha
          rcases List.mem_cons.mp ht with rfl | hmem
          · rcases List.mem_cons.mp ha with rfl | ha'
            · exact List.mem_cons_self a rest
            · exact List.mem_cons_of_mem _ ((List.takeWhile_sublist nonWs).subset ha')
          · exact List.mem_cons_of_mem _
              ((List.dropWhile_sublist nonWs).subset
                (ih (rest.dropWhile nonWs)
                  (le_trans (List.dropWhile_sublist nonWs).length_le hrest) t hmem a ha))
  exact fun u => main u.length u le_rfl

/-! ### `joinSp` -/

theorem joinSp_nil : joinSp [] = [] := rfl

theorem joinSp_single (t : List Char) : joinSp [t] = t := rfl

theorem joinSp_cons₂ (t u : List Char) (ts : List (List Char)) :
    joinSp (t :: u :: ts) = t ++ ' ' :: joinSp (u :: ts) := rfl

theorem mem_joinSp {a : Char} :
    ∀ {ts : List (List Char)}, a ∈ joinSp ts → a = ' ' ∨ ∃ t ∈ ts, a ∈ t := by
  intro ts
  induction ts with
  | nil => intro h; simp [joinSp_nil] at h
  | cons t ts ih =>
    cases ts with
    | nil =>
      intro h
      rw [joinSp_single] at h
      exact Or.inr ⟨t, List.mem_cons_self _ _, h⟩
    | cons u ts2 =>
      intro h
      rw [joinSp_cons₂] at h
      rcases List.mem_append.mp h with hl | hr
      · exact Or.inr ⟨t, List.mem_cons_self _ _, hl⟩
      · rcases List.mem_cons.mp hr with rfl | hr'
        · exact Or.inl rfl
        · rcases ih hr' with h' | ⟨t', ht', ha'⟩
          · exact Or.inl h'
          · exact Or.inr ⟨t', List.mem_cons_of_mem _ ht', ha'⟩

theorem splitWs_joinSp :
    ∀ {toks : List (List Char)},
      (∀ t ∈ toks, t ≠ [] ∧ ∀ a ∈ t, nonWs a = true) →
      splitWs (joinSp toks) = toks := by
  intro toks
  induction toks with
  | nil => intro _; rfl
  | cons t ts ih =>
    intro h
    obtain ⟨htne, htw⟩ := h t (List.mem_cons_self t ts)
    obtain ⟨c, t', rfl⟩ := List.exists_cons_of_ne_nil htne
    have hcw : isWs c = false := by
      have := htw c (List.mem_cons_self c t')
      simpa [nonWs] using this
    cases ts with
    | nil =>
      rw [joinSp_single, splitWs_tok hcw]
      have hall := takeWhile_all (p := nonWs)
        (l := t') (fun a ha => htw a (List.mem_cons_of_mem _ ha))
      rw [hall.1, hall.2, splitWs_nil]
    | cons u ts2 =>
      rw [joinSp_cons₂, List.cons_append, splitWs_tok hcw]
      have hsp : nonWs ' ' = false := by decide
      have hblock := takeWhile_block (p := nonWs) hsp (y := joinSp (u :: ts2))
        (x := t') (fun a ha => htw a (List.mem_cons_of_mem _ ha))
      rw [hblock.1, hblock.2, splitWs_ws (by decide), ih (fun s hs => h s (List.mem_cons_of_mem _ hs))]

/-! ### Occurrence counts through split and join -/

theorem countOcc_joinSp {q : List Char} {q0 : Char} {qt : List Char}
    (hq : q = q0 :: qt) (hqws : ∀ a ∈ q, isWs a = false) :
    ∀ ts, countOcc q (joinSp ts) = (ts.map (countOcc q)).sum := by
  have hsp : (' ' : Char) ∉ q := by
    intro hmem
    have := hqws _ hmem
    simp [isWs] at this
  have hspne : (' ' : Char) ≠ q0 := by
    rintro rfl
    exact hsp (hq ▸ List.mem_cons_self _ _)
  intro ts
  induction ts with
  | nil => simp [joinSp_nil, countOcc_nil]
  | cons t ts ih =>
    cases ts with
    | nil => simp [joinSp_single, List.map_cons, List.sum_cons]
    | cons u ts2 =>
      rw [joinSp_cons₂, countOcc_append_cons hsp,
          countOcc_cons_of_head_ne hq hspne, ih]
      simp [List.map_cons, List.sum_cons]

theorem countOcc_splitWs {q : List Char} {q0 : Char} {qt : List Char}
    (hq : q = q0 :: qt) (hqws : ∀ a ∈ q, isWs a = false) :
    ∀ u, countOcc q u = ((splitWs u).map (countOcc q)).sum := by
  have main : ∀ n (u : List Char), u.length ≤ n →
      countOcc q u = ((splitWs u).map (countOcc q)).sum := by
    intro n
    induction n with
    | zero =>
      intro u hu
      obtain rfl : u = [] := List.length_eq_zero.mp (Nat.le_zero.mp hu)
      simp [splitWs_nil, countOcc_nil]
    | succ n ih =>
      intro u hu
      cases u with
      | nil => simp [splitWs_nil, countOcc_nil]
      | cons c rest =>
        have hrest : rest.length ≤ n := by
          simp only [List.length_cons] at hu
          omega
        by_cases hc : isWs c = true
        · have hcne : c ≠ q0 := by
            rintro rfl
            rw [hqws c (hq ▸ List.mem_cons_self _ _)] at hc
            exact Bool.false_ne_true hc
          rw [splitWs_ws hc, countOcc_cons_of_head_ne hq hcne, ih rest hrest]
        · have hcb : isWs c = false := Bool.not_eq_true _ ▸ hc
          rw [splitWs_tok hcb]
          set tk := rest.takeWhile nonWs with htk
          set dr := rest.dropWhile nonWs with hdr
          have hsplit : rest = tk ++ dr := (List.takeWhile_append_dropWhile nonWs rest).symm
          have hcount : countOcc q (c :: rest) = countOcc q (c :: tk) + countOcc q dr := by
            rw [hsplit]
            cases hd : dr with
            | nil => simp [countOcc_nil]
            | cons b dr' =>
              have hbws : isWs b = true := by
                have := dropWhile_head_false (hdr ▸ hd : rest.dropWhile nonWs = b :: dr')
                simpa [nonWs] using this
              have hbq : b ∉ q := by
                intro hmem
                rw [hqws b hmem] at hbws
                exact Bool.false_ne_true hbws
              rw [← List.cons_append, countOcc_append_cons hbq]
          rw [hcount, ih dr (le_trans ((List.dropWhile_sublist nonWs).length_le) hrest)]
          simp [List.map_cons, List.sum_cons]
  exact fun u => main u.length u le_rfl

/-! ### `prefixToken` -/

theorem prefixToken_ne_nil {t : List Char} (h : t ≠ []) : prefixToken t ≠ [] := by
  rw [prefixToken]
  by_cases hp : tw <+: t
  · rw [if_pos hp]; exact h
  · rw [if_neg hp]; simp [tw]

theorem mem_prefixToken {a : Char} {t : List Char} (h : a ∈ prefixToken t) :
    a ∈ tw ∨ a ∈ t := by
  rw [prefixToken] at h
  by_cases hp : tw <+: t
  · rw [if_pos hp] at h; exact Or.inr h
  · rw [if_neg hp] at h; exact List.mem_append.mp h

theorem prefixToken_starts_tw (t : List Char) : tw <+: prefixToken t := by
  rw [prefixToken]
  by_cases hp : tw <+: t
  · rw [if_pos hp]; exact hp
  · rw [if_neg hp]; exact List.prefix_append tw t

theorem prefixToken_idem (t : List Char) : prefixToken (prefixToken t) = prefixToken t := by
  rw [prefixToken, if_pos (prefixToken_starts_tw t)]

theorem countOcc_prefixToken {q : List Char} {q0 : Char} {qt : List Char}
    (hq : q = q0 :: qt) (h1 : q0 ≠ 't') (h2 : q0 ≠ 'w') (h3 : q0 ≠ '-') (t : List Char) :
    countOcc q (prefixToken t) = countOcc q t := by
  rw [prefixToken]
  by_cases hp : tw <+: t
  · rw [if_pos hp]
  · rw [if_neg hp]
    show countOcc q ('t' :: ('w' :: ('-' :: t))) = countOcc q t
    rw [countOcc_cons_of_head_ne hq (Ne.symm h1), countOcc_cons_of_head_ne hq (Ne.symm h2),
        countOcc_cons_of_head_ne hq (Ne.symm h3)]

theorem countOcc_prefixedBody {q : List Char} {q0 : Char} {qt : List Char}
    (hq : q = q0 :: qt) (hqws : ∀ a ∈ q, isWs a = false)
    (h1 : q0 ≠ 't') (h2 : q0 ≠ 'w') (h3 : q0 ≠ '-') (cl : List Char) :
    countOcc q (prefixedBody cl) = countOcc q cl := by
  rw [prefixedBody, countOcc_joinSp hq hqws, List.map_map]
  have hcongr : ∀ t ∈ splitWs cl, (countOcc q ∘ prefixToken) t = countOcc q t :=
    fun t _ => countOcc_prefixToken hq h1 h2 h3 t
  rw [List.map_congr_left hcongr, ← countOcc_splitWs hq hqws]

/-! ### Characterisation of `matchClassName` -/

theorem lit13_split_quote : lit13 = lit12 ++ ['"'] := rfl

theorem lit13_split_head : lit13 = 'c' :: l13tail := rfl

theorem matchClassName_some {s cl after : List Char}
    (h : matchClassName s = some (cl, after)) :
    cl ≠ [] ∧ (∀ a ∈ cl, nonQuote a = true) ∧ s = lit13 ++ (cl ++ '"' :: after) := by
  by_cases hp : lit13 <+: s
  · obtain ⟨t, ht⟩ := id hp
    have hdrop : s.drop 13 = t := by
      rw [← ht]
      have h13 : lit13.length = 13 := rfl
      rw [← h13]
      exact List.drop_left lit13 t
    rw [matchClassName, if_pos hp, hdrop] at h
    cases htk : t.takeWhile nonQuote with
    | nil =>
      cases hdw : t.dropWhile nonQuote with
      | nil => rw [htk, hdw] at h; exact absurd h (by simp)
      | cons qc r => rw [htk, hdw] at h; exact absurd h (by simp)
    | cons c0 cl' =>
      cases hdw : t.dropWhile nonQuote with
      | nil => rw [htk, hdw] at h; exact absurd h (by simp)
      | cons qc after' =>
        rw [htk, hdw] at h
        injection h with h1
        rw [Prod.mk.injEq] at h1
        obtain ⟨hcl, hafter⟩ := h1
        subst hcl
        subst hafter
        have hqc : qc = '"' := by
          have hfalse := dropWhile_head_false hdw
          by_contra hne
          rw [show nonQuote qc = true from by simp [nonQuote, hne]] at hfalse
          exact Bool.true_eq_false ▸ hfalse
        subst hqc
        refine ⟨List.cons_ne_nil _ _, ?_, ?_⟩
        · intro a ha
          exact mem_takeWhile_p (htk ▸ ha)
        · have hts : t = (c0 :: cl') ++ '"' :: after' :=
            (List.takeWhile_append_dropWhile nonQuote t).symm.trans (by rw [htk, hdw])
          rw [← ht, hts]
  · rw [matchClassName, if_neg hp] at h
    exact absurd h (by simp)

theorem matchClassName_build {cl : List Char} (after : List Char)
    (hcl : cl ≠ []) (hq : ∀ a ∈ cl, nonQuote a = true) :
    matchClassName (lit13 ++ (cl ++ '"' :: after)) = some (cl, after) := by
  have hp : lit13 <+: lit13 ++ (cl ++ '"' :: after) := List.prefix_append _ _
  rw [matchClassName, if_pos hp]
  have hdrop : (lit13 ++ (cl ++ '"' :: after)).drop 13 = cl ++ '"' :: after := by
    have h13 : lit13.length = 13 := rfl
    rw [← h13]
    exact List.drop_left _ _
  rw [hdrop]
  have hnq : nonQuote '"' = false := by decide
  have hblock := takeWhile_block (p := nonQuote) hnq (y := after) (x := cl) hq
  obtain ⟨c0, cl', rfl⟩ := List.exists_cons_of_ne_nil hcl
  rw [hblock.1, hblock.2]

theorem matchClassName_cons_ne {d : Char} (h : d ≠ 'c') (z : List Char) :
    matchClassName (d :: z) = none := by
  have hnp : ¬ lit13 <+: (d :: z) := pfx_cons_ne lit13_split_head h
  rw [matchClassName, if_neg hnp]

theorem matchClassName_noQuote {v : List Char} (h : ∀ a ∈ v, nonQuote a = true) :
    matchClassName v = none := by
  by_cases hp : lit13 <+: v
  · have hqv : ('"' : Char) ∈ v := hp.subset (by decide)
    have := h _ hqv
    exact absurd this (by decide)
  · rw [matchClassName, if_neg hp]

theorem matchClassName_lit13_quote (z : List Char) :
    matchClassName (lit13 ++ '"' :: z) = none := by
  have hp : lit13 <+: lit13 ++ '"' :: z := List.prefix_append _ _
  rw [matchClassName, if_pos hp]
  have hdrop : (lit13 ++ '"' :: z).drop 13 = '"' :: z := by
    have h13 : lit13.length = 13 := rfl
    rw [← h13]
    exact List.drop_left _ _
  rw [hdrop, List.takeWhile_cons, if_neg (by decide)]

/-! ### Unfolding lemmas for the fuelled scanner `subClassName` -/

theorem subClassNameGo_fuel :
    ∀ n fuel (u : List Char), fuel ≤ n → u.length ≤ fuel →
      subClassNameGo fuel u = subClassName u := by
  intro n
  induction n with
  | zero =>
    intro fuel u hf hu
    obtain rfl : fuel = 0 := Nat.le_zero.mp hf
    obtain rfl : u = [] := List.length_eq_zero.mp (Nat.le_zero.mp hu)
    rfl
  | succ n ih =>
    intro fuel u hf hu
    match fuel, u with
    | fuel, [] => cases fuel <;> rfl
    | 0, c :: rest => simp at hu
    | f+1, c :: rest =>
      have hf' : f ≤ n := Nat.le_of_succ_le_succ hf
      have hrest : rest.length ≤ f := by
        simp only [List.length_cons] at hu
        omega
      show subClassNameGo (f+1) (c :: rest) = subClassName (c :: rest)
      have hR : subClassName (c :: rest) = subClassNameGo (rest.length + 1) (c :: rest) := rfl
      rw [hR]
      cases hm : matchClassName (c :: rest) with
      | none =>
        simp only [subClassNameGo, hm]
        rw [ih f rest hf' hrest, ih rest.length rest (le_trans hrest hf') le_rfl]
      | some pr =>
        obtain ⟨cl, after⟩ := pr
        obtain ⟨hcl, hnq, hs⟩ := matchClassName_some hm
        have hlen : after.length ≤ rest.length := by
          have hl := congrArg List.length hs
          simp only [List.length_cons, List.length_append] at hl
          omega
        simp only [subClassNameGo, hm]
        rw [ih f after hf' (le_trans hlen hrest),
            ih rest.length after (le_trans hrest hf') hlen]

theorem subClassName_nil : subClassName [] = [] := rfl

theorem subClassName_cons_some {c : Char} {rest cl after : List Char}
    (h : matchClassName (c :: rest) = some (cl, after)) :
    subClassName (c :: rest) = prefix_classes cl ++ subClassName after := by
  obtain ⟨hcl, hnq, hs⟩ := matchClassName_some h
  have hlen : after.length ≤ rest.length := by
    have hl := congrArg List.length hs
    simp only [List.length_cons, List.length_append] at hl
    omega
  have h1 : subClassName (c :: rest) = subClassNameGo (rest.length + 1) (c :: rest) := rfl
  rw [h1]
  simp only [subClassNameGo, h]
  rw [subClassNameGo_fuel rest.length rest.length after le_rfl hlen]

theorem subClassName_cons_none {c : Char} {rest : List Char}
    (h : matchClassName (c :: rest) = none) :
    subClassName (c :: rest) = c :: subClassName rest := by
  have h1 : subClassName (c :: rest) = subClassNameGo (rest.length + 1) (c :: rest) := rfl
  rw [h1]
  simp only [subClassNameGo, h]
  rw [subClassNameGo_fuel rest.length rest.length rest le_rfl le_rfl]

theorem subClassName_append_no_c {x : List Char} (hx : ∀ a ∈ x, a ≠ 'c') (u : List Char) :
    subClassName (x ++ u) = x ++ subClassName u := by
  induction x with
  | nil => rfl
  | cons a x' ih =>
    rw [List.cons_append,
        subClassName_cons_none (matchClassName_cons_ne (hx a (List.mem_cons_self a x')) _),
        ih (fun b hb => hx b (List.mem_cons_of_mem _ hb)), List.cons_append]

theorem subClassName_id_of_noQuote :
    ∀ {v : List Char}, (∀ a ∈ v, nonQuote a = true) → subClassName v = v := by
  intro v
  induction v with
  | nil => intro _; rfl
  | cons c rest ih =>
    intro h
    rw [subClassName_cons_none (matchClassName_noQuote h),
        ih (fun a ha => h a (List.mem_cons_of_mem _ ha))]

theorem subClassName_lit13_quote (z : List Char) :
    subClassName (lit13 ++ '"' :: z) = lit13 ++ '"' :: subClassName z := by
  have h1 : lit13 ++ '"' :: z = 'c' :: (l13tail ++ '"' :: z) := rfl
  rw [h1, subClassName_cons_none (show matchClassName ('c' :: (l13tail ++ '"' :: z)) = none
      from matchClassName_lit13_quote z),
    subClassName_append_no_c (by decide) ('"' :: z),
    subClassName_cons_none (matchClassName_cons_ne (by decide) _)]
  rfl

theorem subClassName_lit13_match {cl : List Char} (after : List Char)
    (hcl : cl ≠ []) (hnq : ∀ a ∈ cl, nonQuote a = true) :
    subClassName (lit13 ++ (cl ++ '"' :: after))
      = prefix_classes cl ++ subClassName after := by
  have h1 : lit13 ++ (cl ++ '"' :: after) = 'c' :: (l13tail ++ (cl ++ '"' :: after)) := rfl
  rw [h1]
  exact subClassName_cons_some
    (show matchClassName ('c' :: (l13tail ++ (cl ++ '"' :: after))) = some (cl, after)
      from matchClassName_build after hcl hnq)

/-! ### The scanner `subClassName` preserves everything up to the first quote -/

theorem take_sub3 :
    ∀ v : List Char, ∀ k, k ≤ 13 → (subClassName v).take k = v.take k := by
  have main : ∀ n (v : List Char), v.length ≤ n → ∀ k, k ≤ 13 →
      (subClassName v).take k = v.take k := by
    intro n
    induction n with
    | zero =>
      intro v hv k hk
      obtain rfl : v = [] := List.length_eq_zero.mp (Nat.le_zero.mp hv)
      rw [subClassName_nil]
    | succ n ih =>
      intro v hv k hk
      cases v with
      | nil => rw [subClassName_nil]
      | cons c rest =>
        cases hm : matchClassName (c :: rest) with
        | some pr =>
          obtain ⟨cl, after⟩ := pr
          obtain ⟨hcl, hnq, hs⟩ := matchClassName_some hm
          rw [subClassName_cons_some hm, hs, prefix_classes, List.append_assoc,
              List.append_assoc, List.take_append_of_le_length (by rw [show lit13.length = 13 from rfl]; exact hk),
              List.take_append_of_le_length (by rw [show lit13.length = 13 from rfl]; exact hk)]
        | none =>
          rw [subClassName_cons_none hm]
          cases k with
          | zero => rfl
          | succ k' =>
            have hrest : rest.length ≤ n := by
              simp only [List.length_cons] at hv
              omega
            rw [List.take_succ_cons, List.take_succ_cons,
                ih rest hrest k' (by omega)]
  exact fun v => main v.length v le_rfl

theorem lit13_pfx_sub3_iff (v : List Char) :
    (lit13 <+: subClassName v) ↔ (lit13 <+: v) := by
  rw [List.prefix_iff_eq_take, List.prefix_iff_eq_take,
      show lit13.length = 13 from rfl, take_sub3 v 13 le_rfl]

theorem takeWhile_nonQuote_sub3 :
    ∀ v : List Char, (subClassName v).takeWhile nonQuote = v.takeWhile nonQuote := by
  have hlit12 : ∀ a ∈ lit12, nonQuote a = true := by decide
  have hq : nonQuote '"' = false := by decide
  have main : ∀ n (v : List Char), v.length ≤ n →
      (subClassName v).takeWhile nonQuote = v.takeWhile nonQuote := by
    intro n
    induction n with
    | zero =>
      intro v hv
      obtain rfl : v = [] := List.length_eq_zero.mp (Nat.le_zero.mp hv)
      rw [subClassName_nil]
    | succ n ih =>
      intro v hv
      cases v with
      | nil => rw [subClassName_nil]
      | cons c rest =>
        cases hm : matchClassName (c :: rest) with
        | some pr =>
          obtain ⟨cl, after⟩ := pr
          obtain ⟨hcl, hnq, hs⟩ := matchClassName_some hm
          have hLform : prefix_classes cl ++ subClassName after
              = lit12 ++ '"' :: (prefixedBody cl ++ '"' :: subClassName after) := by
            rw [prefix_classes, lit13_split_quote]
            simp [List.append_assoc]
          have hRform : (c :: rest) = lit12 ++ '"' :: (cl ++ '"' :: after) := by
            rw [hs, lit13_split_quote]
            simp [List.append_assoc]
          rw [subClassName_cons_some hm, hLform, hRform,
              (takeWhile_block hq _ hlit12).1, (takeWhile_block hq _ hlit12).1]
        | none =>
          rw [subClassName_cons_none hm, List.takeWhile_cons, List.takeWhile_cons]
          by_cases hc : nonQuote c = true
          · have hrest : rest.length ≤ n := by
              simp only [List.length_cons] at hv
              omega
            rw [if_pos hc, if_pos hc, ih rest hrest]
          · rw [if_neg hc, if_neg hc]
  exact fun v => main v.length v le_rfl

theorem pfx_iff_takeWhile {p : List Char} (hp : ∀ a ∈ p, nonQuote a = true) :
    ∀ z : List Char, ((p <+: z) ↔ p <+: z.takeWhile nonQuote) := by
  induction p with
  | nil => intro z; simp [List.nil_prefix]
  | cons a p' ih =>
    intro z
    have ha : nonQuote a = true := hp a (List.mem_cons_self a p')
    have hp' : ∀ b ∈ p', nonQuote b = true := fun b hb => hp b (List.mem_cons_of_mem _ hb)
    cases z with
    | nil => rfl
    | cons b z' =>
      rw [List.takeWhile_cons]
      by_cases hb : nonQuote b = true
      · rw [if_pos hb, List.cons_prefix_cons, List.cons_prefix_cons, ih hp' z']
      · rw [if_neg hb]
        have hL : ¬ (a :: p') <+: (b :: z') := by
          intro hcon
          rw [List.cons_prefix_cons] at hcon
          rw [hcon.1] at ha
          rw [ha] at hb
          exact hb rfl
        have hR : ¬ (a :: p') <+: ([] : List Char) := by simp
        exact iff_of_false hL hR

theorem matchClassName_none_sub3 {c : Char} {rest : List Char}
    (h : matchClassName (c :: rest) = none) :
    matchClassName (c :: subClassName rest) = none := by
  by_cases hp : lit13 <+: (c :: rest)
  · obtain ⟨w, hw⟩ := id hp
    rw [lit13_split_head, List.cons_append] at hw
    injection hw with h1 h2
    subst h1
    have hskip : subClassName rest = l13tail ++ subClassName w := by
      rw [← h2, subClassName_append_no_c (by decide)]
    have hgoal : ('c' :: (l13tail ++ subClassName w)) = lit13 ++ subClassName w := rfl
    have horig : ('c' :: (l13tail ++ w)) = lit13 ++ w := rfl
    rw [hskip, hgoal]
    rw [← h2, horig] at h
    cases w with
    | nil => rw [subClassName_nil]; exact h
    | cons w0 w2 =>
      by_cases hw0 : nonQuote w0 = true
      · have hnoq : ∀ a ∈ (w0 :: w2), nonQuote a = true := by
          cases hdw : (w0 :: w2).dropWhile nonQuote with
          | nil => exact fun a ha => List.dropWhile_eq_nil_iff.mp hdw a ha
          | cons qc r =>
            exfalso
            have hp2 : lit13 <+: lit13 ++ (w0 :: w2) := List.prefix_append _ _
            have hdrop : (lit13 ++ (w0 :: w2)).drop 13 = w0 :: w2 := by
              have h13 : lit13.length = 13 := rfl
              rw [← h13]
              exact List.drop_left _ _
            rw [matchClassName, if_pos hp2, hdrop, List.takeWhile_cons, if_pos hw0, hdw] at h
            exact absurd h (by simp)
        rw [subClassName_id_of_noQuote hnoq]
        exact h
      · have hw0q : w0 = '"' := by
          by_contra hne
          rw [show nonQuote w0 = true from by simp [nonQuote, hne]] at hw0
          exact hw0 rfl
        subst hw0q
        rw [subClassName_cons_none (matchClassName_cons_ne (by decide) _)]
        exact matchClassName_lit13_quote _
  · have hpf : ¬ lit13 <+: (c :: subClassName rest) := by
      intro hcon
      apply hp
      rw [List.prefix_iff_eq_take] at hcon ⊢
      rw [show lit13.length = 13 from rfl] at hcon ⊢
      rw [List.take_succ_cons] at hcon ⊢
      rw [take_sub3 rest 12 (by omega)] at hcon
      exact hcon
    rw [matchClassName, if_neg hpf]

/-! ### Occurrence counts through `subClassName` -/

theorem countOcc_subClassName {q : List Char} {q0 : Char} {qt : List Char}
    (hq : q = q0 :: qt) (hqq : ∀ a ∈ q, nonQuote a = true)
    (hqws : ∀ a ∈ q, isWs a = false)
    (h1 : q0 ≠ 't') (h2 : q0 ≠ 'w') (h3 : q0 ≠ '-') :
    ∀ v, countOcc q (subClassName v) = countOcc q v := by
  have hqmem : ('"' : Char) ∉ q := by
    intro hmem
    exact absurd (hqq _ hmem) (by decide)
  have hqne : ('"' : Char) ≠ q0 := by
    rintro rfl
    exact hqmem (hq ▸ List.mem_cons_self _ _)
  have main : ∀ n (v : List Char), v.length ≤ n →
      countOcc q (subClassName v) = countOcc q v := by
    intro n
    induction n with
    | zero =>
      intro v hv
      obtain rfl : v = [] := List.length_eq_zero.mp (Nat.le_zero.mp hv)
      rw [subClassName_nil]
    | succ n ih =>
      intro v hv
      cases v with
      | nil => rw [subClassName_nil]
      | cons c rest =>
        cases hm : matchClassName (c :: rest) with
        | some pr =>
          obtain ⟨cl, after⟩ := pr
          obtain ⟨hcl, hnq, hs⟩ := matchClassName_some hm
          have hafterlen : after.length ≤ n := by
            have hl := congrArg List.length hs
            simp only [List.length_cons, List.length_append] at hl hv
            omega
          have hLform : prefix_classes cl ++ subClassName after
              = lit12 ++ '"' :: (prefixedBody cl ++ '"' :: subClassName after) := by
            rw [prefix_classes, lit13_split_quote]
            simp [List.append_assoc]
          have hRform : (c :: rest) = lit12 ++ '"' :: (cl ++ '"' :: after) := by
            rw [hs, lit13_split_quote]
            simp [List.append_assoc]
          rw [subClassName_cons_some hm, hLform,
              countOcc_append_cons hqmem, countOcc_cons_of_head_ne hq hqne,
              countOcc_append_cons hqmem, countOcc_cons_of_head_ne hq hqne]
      -- left side is now in pieces; rewrite the right side the same way
          rw [show countOcc q (c :: rest) = countOcc q (lit12 ++ '"' :: (cl ++ '"' :: after))
                from by rw [← hRform],
              countOcc_append_cons hqmem, countOcc_cons_of_head_ne hq hqne,
              countOcc_append_cons hqmem, countOcc_cons_of_head_ne hq hqne]
          rw [countOcc_prefixedBody hq hqws h1 h2 h3 cl, ih after hafterlen]
        | none =>
          have hrest : rest.length ≤ n := by
            simp only [List.length_cons] at hv
            omega
          rw [subClassName_cons_none hm, countOcc_cons, countOcc_cons q c rest,
              ih rest hrest]
          have htw : (c :: subClassName rest).takeWhile nonQuote
              = (c :: rest).takeWhile nonQuote := by
            rw [List.takeWhile_cons, List.takeWhile_cons, takeWhile_nonQuote_sub3 rest]
          have hiff : (q <+: (c :: subClassName rest)) ↔ (q <+: (c :: rest)) := by
            rw [pfx_iff_takeWhile hqq (c :: subClassName rest),
                pfx_iff_takeWhile hqq (c :: rest), htw]
          simp only [hiff]
  exact fun v => main v.length v le_rfl

/-! ### Idempotence of the className pass -/

theorem prefixedBody_tokens {cl : List Char} :
    ∀ t ∈ (splitWs cl).map prefixToken, t ≠ [] ∧ ∀ a ∈ t, nonWs a = true := by
  intro t ht
  obtain ⟨t0, ht0, rfl⟩ := List.mem_map.mp ht
  obtain ⟨ht0ne, ht0w⟩ := splitWs_sound cl t0 ht0
  refine ⟨prefixToken_ne_nil ht0ne, ?_⟩
  intro a ha
  rcases mem_prefixToken ha with hatw | hat0
  · have : a = 't' ∨ a = 'w' ∨ a = '-' := by simpa [tw] using hatw
    rcases this with rfl | rfl | rfl <;> decide
  · exact ht0w a hat0

theorem prefixedBody_noQuote {cl : List Char} (hcl : ∀ a ∈ cl, nonQuote a = true) :
    ∀ a ∈ prefixedBody cl, nonQuote a = true := by
  intro a ha
  rcases mem_joinSp ha with rfl | ⟨t, ht, hat⟩
  · decide
  · obtain ⟨t0, ht0, rfl⟩ := List.mem_map.mp ht
    rcases mem_prefixToken hat with hatw | hat0
    · have : a = 't' ∨ a = 'w' ∨ a = '-' := by simpa [tw] using hatw
      rcases this with rfl | rfl | rfl <;> decide
    · exact hcl a (splitWs_subset cl t0 ht0 a hat0)

theorem prefixedBody_idem (cl : List Char) :
    prefixedBody (prefixedBody cl) = prefixedBody cl := by
  have hsplit : splitWs (prefixedBody cl) = (splitWs cl).map prefixToken :=
    splitWs_joinSp prefixedBody_tokens
  rw [prefixedBody, hsplit, List.map_map]
  have : ∀ t ∈ splitWs cl, (prefixToken ∘ prefixToken) t = prefixToken t :=
    fun t _ => prefixToken_idem t
  rw [List.map_congr_left this]
  rfl

theorem subClassName_idem : ∀ v, subClassName (subClassName v) = subClassName v := by
  have main : ∀ n (v : List Char), v.length ≤ n →
      subClassName (subClassName v) = subClassName v := by
    intro n
    induction n with
    | zero =>
      intro v hv
      obtain rfl : v = [] := List.length_eq_zero.mp (Nat.le_zero.mp hv)
      rw [subClassName_nil, subClassName_nil]
    | succ n ih =>
      intro v hv
      cases v with
      | nil => rw [subClassName_nil, subClassName_nil]
      | cons c rest =>
        cases hm : matchClassName (c :: rest) with
        | some pr =>
          obtain ⟨cl, after⟩ := pr
          obtain ⟨hcl, hnq, hs⟩ := matchClassName_some hm
          have hafterlen : after.length ≤ n := by
            have hl := congrArg List.length hs
            simp only [List.length_cons, List.length_append] at hl hv
            omega
          have hT := ih after hafterlen
          rw [subClassName_cons_some hm]
          have hassoc : prefix_classes cl ++ subClassName after
              = lit13 ++ (prefixedBody cl ++ '"' :: subClassName after) := by
            rw [prefix_classes]
            simp [List.append_assoc]
          rw [hassoc]
          cases hb : prefixedBody cl with
          | nil =>
            rw [List.nil_append, subClassName_lit13_quote, hT]
          | cons b body' =>
            have hbody_nq : ∀ a ∈ prefixedBody cl, nonQuote a = true :=
              prefixedBody_noQuote hnq
            rw [← hb]
            rw [subClassName_lit13_match (subClassName after)
                (by rw [hb]; exact List.cons_ne_nil _ _) hbody_nq, hT]
            have hpc : prefix_classes (prefixedBody cl) = prefix_classes cl := by
              rw [prefix_classes, prefix_classes, prefixedBody_idem]
            rw [hpc]
            exact hassoc
        | none =>
          have hrest : rest.length ≤ n := by
            simp only [List.length_cons] at hv
            omega
          rw [subClassName_cons_none hm,
              subClassName_cons_none (matchClassName_none_sub3 hm), ih rest hrest]
  exact fun v => main v.length v le_rfl

/-- If the className regex matches nowhere, the third pass copies the text. -/
theorem subClassName_id_of_no_match :
    ∀ {s : List Char}, hasCNM s = false → subClassName s = s := by
  intro s
  induction s with
  | nil => intro _; rfl
  | cons c rest ih =>
    intro h
    rw [hasCNM] at h
    obtain ⟨h1, h2⟩ := Bool.or_eq_false_iff.mp h
    cases hm : matchClassName (c :: rest) with
    | some pr => rw [hm] at h1; exact absurd h1 (by simp)
    | none => rw [subClassName_cons_none hm, ih h2]

/-! ### The generic counting lemmas specialised to the two literal passes -/

theorem pass1_kills_patTwAdd (u : List Char) :
    countOcc patTwAdd (replaceSub patTwAdd replAdd u) = 0 :=
  @countOcc_replaceSub_pat 'c' patTwAdd.tail replAdd.tail
    (by decide) (by decide) (by decide) (by decide) u

theorem pass2_kills_patTwRemove (u : List Char) :
    countOcc patTwRemove (replaceSub patTwRemove replRemove u) = 0 :=
  @countOcc_replaceSub_pat 'c' patTwRemove.tail replRemove.tail
    (by decide) (by decide) (by decide) (by decide) u

theorem pass1_counts_replAdd (u : List Char) :
    countOcc replAdd (replaceSub patTwAdd replAdd u)
      = countOcc replAdd u + countOcc patTwAdd u :=
  @countOcc_replaceSub_repl 'c' patTwAdd.tail replAdd.tail
    (by decide) (by decide) (by decide) (by decide) u

theorem pass2_counts_replRemove (u : List Char) :
    countOcc replRemove (replaceSub patTwRemove replRemove u)
      = countOcc replRemove u + countOcc patTwRemove u :=
  @countOcc_replaceSub_repl 'c' patTwRemove.tail replRemove.tail
    (by decide) (by decide) (by decide) (by decide) u

theorem pass2_pres_patTwAdd (u : List Char) :
    countOcc patTwAdd (replaceSub patTwRemove replRemove u) = countOcc patTwAdd u :=
  @countOcc_replaceSub_other 'c' patTwRemove.tail replRemove.tail patTwAdd.tail
    (by decide) (by decide) (by decide) (by decide) (by decide) (by decide) (by decide) u

theorem pass1_pres_patTwRemove (u : List Char) :
    countOcc patTwRemove (replaceSub patTwAdd replAdd u) = countOcc patTwRemove u :=
  @countOcc_replaceSub_other 'c' patTwAdd.tail replAdd.tail patTwRemove.tail
    (by decide) (by decide) (by decide) (by decide) (by decide) (by decide) (by decide) u

theorem pass2_pres_replAdd (u : List Char) :
    countOcc replAdd (replaceSub patTwRemove replRemove u) = countOcc replAdd u :=
  @countOcc_replaceSub_other 'c' patTwRemove.tail replRemove.tail replAdd.tail
    (by decide) (by decide) (by decide) (by decide) (by decide) (by decide) (by decide) u

theorem pass1_pres_replRemove (u : List Char) :
    countOcc replRemove (replaceSub patTwAdd replAdd u) = countOcc replRemove u :=
  @countOcc_replaceSub_other 'c' patTwAdd.tail replAdd.tail replRemove.tail
    (by decide) (by decide) (by decide) (by decide) (by decide) (by decide) (by decide) u

theorem pass3_pres_patTwAdd (v : List Char) :
    countOcc patTwAdd (subClassName v) = countOcc patTwAdd v :=
  @countOcc_subClassName patTwAdd 'c' patTwAdd.tail rfl
    (by decide) (by decide) (by decide) (by decide) (by decide) v

theorem pass3_pres_patTwRemove (v : List Char) :
    countOcc patTwRemove (subClassName v) = countOcc patTwRemove v :=
  @countOcc_subClassName patTwRemove 'c' patTwRemove.tail rfl
    (by decide) (by decide) (by decide) (by decide) (by decide) v

theorem pass3_pres_replAdd (v : List Char) :
    countOcc replAdd (subClassName v) = countOcc replAdd v :=
  @countOcc_subClassName replAdd 'c' replAdd.tail rfl
    (by decide) (by decide) (by decide) (by decide) (by decide) v

theorem pass3_pres_replRemove (v : List Char) :
    countOcc replRemove (subClassName v) = countOcc replRemove v :=
  @countOcc_subClassName replRemove 'c' replRemove.tail rfl
    (by decide) (by decide) (by decide) (by decide) (by decide) v

/-! ### Counting through the full pipeline -/

theorem pipeline_kills_patTwAdd (s : List Char) :
    countOcc patTwAdd (pipeline s) = 0 := by
  rw [pipeline, pass3_pres_patTwAdd, pass2_pres_patTwAdd, pass1_kills_patTwAdd]

theorem pipeline_kills_patTwRemove (s : List Char) :
    countOcc patTwRemove (pipeline s) = 0 := by
  rw [pipeline, pass3_pres_patTwRemove, pass2_kills_patTwRemove]

theorem pipeline_counts_replAdd (s : List Char) :
    countOcc replAdd (pipeline s) = countOcc replAdd s + countOcc patTwAdd s := by
  rw [pipeline, pass3_pres_replAdd, pass2_pres_replAdd, pass1_counts_replAdd]

theorem pipeline_counts_replRemove (s : List Char) :
    countOcc replRemove (pipeline s) = countOcc replRemove s + countOcc patTwRemove s := by
  rw [pipeline, pass3_pres_replRemove, pass2_counts_replRemove,
      pass1_pres_replRemove, pass1_pres_patTwRemove]

/-! ### No double spaces in a rejoined class string -/

theorem joinSp_cons_head (u0 : Char) (u' : List Char) (ts : List (List Char)) :
    ∃ z, joinSp ((u0 :: u') :: ts) = u0 :: z := by
  cases ts with
  | nil => exact ⟨u', rfl⟩
  | cons w ts' =>
    exact ⟨u' ++ ' ' :: joinSp (w :: ts'), by rw [joinSp_cons₂, List.cons_append]⟩

theorem countOcc_dd_sep {t J : List Char} (ht : ∀ a ∈ t, a ≠ ' ')
    (hJ : ¬ [' '] <+: J) :
    countOcc [' ', ' '] (t ++ ' ' :: J) = countOcc [' ', ' '] J := by
  induction t with
  | nil =>
    have hcon : ¬ ([' ', ' '] <+: (' ' :: J)) := by
      intro hcon
      rw [List.cons_prefix_cons] at hcon
      exact hJ hcon.2
    rw [List.nil_append, countOcc_cons, if_neg hcon, Nat.zero_add]
  | cons a t' ih =>
    rw [List.cons_append, countOcc_cons_of_head_ne rfl (ht a (List.mem_cons_self a t')),
        ih (fun b hb => ht b (List.mem_cons_of_mem _ hb))]

theorem countOcc_dd_joinSp :
    ∀ toks : List (List Char), (∀ t ∈ toks, t ≠ [] ∧ ∀ a ∈ t, nonWs a = true) →
      countOcc [' ', ' '] (joinSp toks) = 0 := by
  intro toks
  induction toks with
  | nil => intro _; rfl
  | cons t ts ih =>
    intro h
    obtain ⟨htne, htw⟩ := h t (List.mem_cons_self t ts)
    have htsp : ∀ a ∈ t, a ≠ ' ' := by
      intro a ha
      rintro rfl
      have hnw := htw _ ha
      rw [show nonWs ' ' = false from by decide] at hnw
      exact Bool.false_ne_true hnw
    cases ts with
    | nil =>
      rw [joinSp_single]
      exact countOcc_zero_of_no_head rfl htsp
    | cons u ts2 =>
      obtain ⟨hune, huw⟩ := h u (List.mem_cons_of_mem _ (List.mem_cons_self u ts2))
      obtain ⟨u0, u', rfl⟩ := List.exists_cons_of_ne_nil hune
      obtain ⟨z, hz⟩ := joinSp_cons_head u0 u' ts2
      have hu0 : u0 ≠ ' ' := by
        rintro rfl
        have hnw := huw _ (List.mem_cons_self _ _)
        rw [show nonWs ' ' = false from by decide] at hnw
        exact Bool.false_ne_true hnw
      have hJ : ¬ [' '] <+: joinSp ((u0 :: u') :: ts2) := by
        rw [hz]
        intro hcon
        rw [List.cons_prefix_cons] at hcon
        exact hu0 hcon.1.symm
      rw [joinSp_cons₂, countOcc_dd_sep htsp hJ]
      exact ih (fun t' ht' => h t' (List.mem_cons_of_mem _ ht'))

/-! ### The ten claims -/

/-- C1: for every input text, applying the full three-step pipeline to its
own output yields byte-identical output: `pipeline (pipeline s) = pipeline s`. -/
theorem c1_pipeline_idem (s : List Char) : pipeline (pipeline s) = pipeline s := by
  have h1 : replaceSub patTwAdd replAdd (pipeline s) = pipeline s :=
    replaceSub_id_of_countOcc_zero replAdd (pipeline s) (pipeline_kills_patTwAdd s)
  have h2 : replaceSub patTwRemove replRemove (pipeline s) = pipeline s :=
    replaceSub_id_of_countOcc_zero replRemove (pipeline s) (pipeline_kills_patTwRemove s)
  calc pipeline (pipeline s)
      = subClassName (replaceSub patTwRemove replRemove
          (replaceSub patTwAdd replAdd (pipeline s))) := rfl
    _ = subClassName (pipeline s) := by rw [h1, h2]
    _ = pipeline s :=
        subClassName_idem (replaceSub patTwRemove replRemove (replaceSub patTwAdd replAdd s))

/-- C2: for every captured class string, the output token list is exactly the
input token list with `tw-` prepended to every token that does not already
start with `tw-`; in particular token count and relative order are
preserved. -/
theorem c2_tokens_prefixed (classes : List Char) :
    splitWs (prefixedBody classes)
        = (splitWs classes).map (fun t => if tw <+: t then t else tw ++ t) ∧
      (splitWs (prefixedBody classes)).length = (splitWs classes).length := by
  have h : splitWs (prefixedBody classes) = (splitWs classes).map prefixToken :=
    splitWs_joinSp prefixedBody_tokens
  exact ⟨h, by rw [h, List.length_map]⟩

/-- C3: on any input containing `classList.tw-add(`, the pipeline output
contains zero occurrences of `classList.tw-add(`, and the occurrences of
`classList.add(` in the output count those of the input plus the mangled
ones. -/
theorem c3_twadd_eliminated (s : List Char) (_h : 1 ≤ countOcc patTwAdd s) :
    countOcc patTwAdd (pipeline s) = 0 ∧
      countOcc replAdd (pipeline s) = countOcc replAdd s + countOcc patTwAdd s :=
  ⟨pipeline_kills_patTwAdd s, pipeline_counts_replAdd s⟩

/-- Witness for C3 at the concrete input `classList.tw-add(`. -/
theorem c3_twadd_eliminated_w :
    1 ≤ countOcc patTwAdd patTwAdd ∧
      (countOcc patTwAdd (pipeline patTwAdd) = 0 ∧
        countOcc replAdd (pipeline patTwAdd)
          = countOcc replAdd patTwAdd + countOcc patTwAdd patTwAdd) :=
  ⟨by decide, c3_twadd_eliminated patTwAdd (by decide)⟩

/-- C4: on any input containing `classList.tw-remove(`, the pipeline output
contains zero occurrences of `classList.tw-remove(`, and the occurrences of
`classList.remove(` in the output count those of the input plus the mangled
ones. -/
theorem c4_twremove_eliminated (s : List Char) (_h : 1 ≤ countOcc patTwRemove s) :
    countOcc patTwRemove (pipeline s) = 0 ∧
      countOcc replRemove (pipeline s)
        = countOcc replRemove s + countOcc patTwRemove s :=
  ⟨pipeline_kills_patTwRemove s, pipeline_counts_replRemove s⟩

/-- Witness for C4 at the concrete input `classList.tw-remove(`. -/
theorem c4_twremove_eliminated_w :
    1 ≤ countOcc patTwRemove patTwRemove ∧
      (countOcc patTwRemove (pipeline patTwRemove) = 0 ∧
        countOcc replRemove (pipeline patTwRemove)
          = countOcc replRemove patTwRemove + countOcc patTwRemove patTwRemove) :=
  ⟨by decide, c4_twremove_eliminated patTwRemove (by decide)⟩

/-- C5: on an input with no occurrence of any of the three patterns, the
pipeline output is byte-identical to the input, and the run still writes the
file (with identical content) and prints the fixed success message. -/
theorem c5_no_match_identity (s : List Char)
    (h1 : countOcc patTwAdd s = 0) (h2 : countOcc patTwRemove s = 0)
    (h3 : hasCNM s = false) :
    pipeline s = s ∧ runProgram ⟨some s⟩ = (⟨some s⟩, some successMsg) := by
  have hpipe : pipeline s = s := by
    rw [pipeline, replaceSub_id_of_countOcc_zero replAdd s h1,
        replaceSub_id_of_countOcc_zero replRemove s h2,
        subClassName_id_of_no_match h3]
  refine ⟨hpipe, ?_⟩
  show ((⟨some (pipeline s)⟩ : FS), some successMsg) = (⟨some s⟩, some successMsg)
  rw [hpipe]

/-- Witness for C5 at the concrete input `hello`. -/
theorem c5_no_match_identity_w :
    countOcc patTwAdd ("hello".toList) = 0 ∧
      countOcc patTwRemove ("hello".toList) = 0 ∧
      hasCNM ("hello".toList) = false ∧
      (pipeline ("hello".toList) = "hello".toList ∧
        runProgram ⟨some ("hello".toList)⟩
          = (⟨some ("hello".toList)⟩, some successMsg)) :=
  ⟨by decide, by decide, by decide,
    c5_no_match_identity ("hello".toList) (by decide) (by decide) (by decide)⟩

/-- C6: when the target file cannot be opened for reading, the run fails
before any write: the file state is returned unchanged and no success message
is produced. -/
theorem c6_read_failure_no_write : runProgram ⟨none⟩ = (⟨none⟩, none) := rfl

/-- C7: the pipeline is exactly the sequential composition of the three
substitution passes in the fixed order tw-add fix, tw-remove fix, className
prefixing; all three are applied unconditionally. -/
theorem c7_three_passes_in_order (s : List Char) :
    pipeline s
      = subClassName (replaceSub patTwRemove replRemove
          (replaceSub patTwAdd replAdd s)) := rfl

/-- C8: empty tokens arising from consecutive whitespace are dropped and the
surviving tokens are rejoined with single spaces: the rebuilt class string
has the marked tokens of the input, its only whitespace is the single space
separator, it never contains two adjacent spaces, and in particular
`className = "a  b"` is rewritten to `className = "tw-a tw-b"`. -/
theorem c8_ws_collapsed (classes : List Char) :
    splitWs (prefixedBody classes) = (splitWs classes).map prefixToken ∧
      (∀ a ∈ prefixedBody classes, isWs a = true → a = ' ') ∧
      countOcc [' ', ' '] (prefixedBody classes) = 0 ∧
      pipeline ("className = \"a  b\"".toList) = "className = \"tw-a tw-b\"".toList := by
  refine ⟨splitWs_joinSp prefixedBody_tokens, ?_,
    countOcc_dd_joinSp _ prefixedBody_tokens, by decide⟩
  intro a ha hws
  rcases mem_joinSp ha with rfl | ⟨t, ht, hat⟩
  · rfl
  · exfalso
    obtain ⟨ht0, htw⟩ := prefixedBody_tokens t ht
    have hnw := htw a hat
    rw [nonWs, hws] at hnw
    simp at hnw

/-- C9 (amended): the regex can never match at a `className = ""` occurrence
itself, because the captured group needs at least one character; and an
occurrence of `className = ""` at the start of the input is copied verbatim
by the pipeline, which transforms only the text after it.  (The original
universal claim fails for occurrences overlapped by an earlier greedy match;
see the counterexample below.) -/
theorem c9_empty_literal_untouched :
    (∀ u, matchClassName (emptyClassName ++ u) = none) ∧
      (∀ s, pipeline (emptyClassName ++ s) = emptyClassName ++ pipeline s) := by
  constructor
  · exact fun u => matchClassName_lit13_quote u
  · intro s
    have hp1 : ∀ w : List Char, replaceSub patTwAdd replAdd (emptyClassName ++ w)
        = emptyClassName ++ replaceSub patTwAdd replAdd w := by
      intro w
      have hstep : ¬ patTwAdd <+:
          ('c' :: (['l','a','s','s','N','a','m','e',' ','=',' ','"','"'] ++ w)) :=
        pfx_append_not_of_not (p := patTwAdd) (q := emptyClassName) (u := w)
          (by decide) (by decide)
      calc replaceSub patTwAdd replAdd (emptyClassName ++ w)
          = 'c' :: replaceSub patTwAdd replAdd
              (['l','a','s','s','N','a','m','e',' ','=',' ','"','"'] ++ w) :=
            replaceSub_cons_neg replAdd hstep
        _ = emptyClassName ++ replaceSub patTwAdd replAdd w := by
            have htail : replaceSub patTwAdd replAdd
                (['l','a','s','s','N','a','m','e',' ','=',' ','"','"'] ++ w)
                = ['l','a','s','s','N','a','m','e',' ','=',' ','"','"']
                    ++ replaceSub patTwAdd replAdd w :=
              @replaceSub_append_no_head 'c' patTwAdd.tail replAdd
                ['l','a','s','s','N','a','m','e',' ','=',' ','"','"'] (by decide) w
            rw [htail]
            rfl
    have hp2 : ∀ w : List Char, replaceSub patTwRemove replRemove (emptyClassName ++ w)
        = emptyClassName ++ replaceSub patTwRemove replRemove w := by
      intro w
      have hstep : ¬ patTwRemove <+:
          ('c' :: (['l','a','s','s','N','a','m','e',' ','=',' ','"','"'] ++ w)) :=
        pfx_append_not_of_not (p := patTwRemove) (q := emptyClassName) (u := w)
          (by decide) (by decide)
      calc replaceSub patTwRemove replRemove (emptyClassName ++ w)
          = 'c' :: replaceSub patTwRemove replRemove
              (['l','a','s','s','N','a','m','e',' ','=',' ','"','"'] ++ w) :=
            replaceSub_cons_neg replRemove hstep
        _ = emptyClassName ++ replaceSub patTwRemove replRemove w := by
            have htail : replaceSub patTwRemove replRemove
                (['l','a','s','s','N','a','m','e',' ','=',' ','"','"'] ++ w)
                = ['l','a','s','s','N','a','m','e',' ','=',' ','"','"']
                    ++ replaceSub patTwRemove replRemove w :=
              @replaceSub_append_no_head 'c' patTwRemove.tail replRemove
                ['l','a','s','s','N','a','m','e',' ','=',' ','"','"'] (by decide) w
            rw [htail]
            rfl
    have hp3 : ∀ w : List Char, subClassName (emptyClassName ++ w)
        = emptyClassName ++ subClassName w := fun w => subClassName_lit13_quote w
    calc pipeline (emptyClassName ++ s)
        = subClassName (replaceSub patTwRemove replRemove
            (replaceSub patTwAdd replAdd (emptyClassName ++ s))) := rfl
      _ = subClassName (replaceSub patTwRemove replRemove
            (emptyClassName ++ replaceSub patTwAdd replAdd s)) := by rw [hp1 s]
      _ = subClassName (emptyClassName ++ replaceSub patTwRemove replRemove
            (replaceSub patTwAdd replAdd s)) := by
            rw [hp2 (replaceSub patTwAdd replAdd s)]
      _ = emptyClassName ++ subClassName (replaceSub patTwRemove replRemove
            (replaceSub patTwAdd replAdd s)) :=
          hp3 (replaceSub patTwRemove replRemove (replaceSub patTwAdd replAdd s))
      _ = emptyClassName ++ pipeline s := rfl

/-- C10 (amended): the className pass matches only the exact lexical form
with one space on each side of the equals sign: every match starts with the
literal 13 characters `className = "`.  A whole text consisting of an
assignment written with other spacing, such as `className="x"` or
`className  =  "x"`, passes through the pipeline unchanged.  (The original
universal claim fails for other-spaced assignments overlapped by an earlier
greedy match; see the counterexample below.) -/
theorem c10_exact_spacing :
    (∀ s : List Char, matchClassName s = none ∨ lit13 <+: s) ∧
      pipeline ("className=\"x\"".toList) = "className=\"x\"".toList ∧
      pipeline ("className  =  \"x\"".toList) = "className  =  \"x\"".toList := by
  refine ⟨?_, by decide, by decide⟩
  intro s
  by_cases hp : lit13 <+: s
  · exact Or.inr hp
  · exact Or.inl (by rw [matchClassName, if_neg hp])

/-- C9 counterexample: the claim that every occurrence of `className = ""`
in every input is left unchanged is false.  The input
`className = "A className = ""` contains exactly one occurrence of
`className = ""`, but the greedy capture of the match starting at the head
of the text reaches into it, and the pipeline output
`className = "tw-A tw-className tw-=""` contains zero occurrences. -/
theorem c9_counterexample :
    countOcc emptyClassName ("className = \"A className = \"\"".toList) = 1 ∧
      countOcc emptyClassName
        (pipeline ("className = \"A className = \"\"".toList)) = 0 ∧
      pipeline ("className = \"A className = \"\"".toList)
        = "className = \"tw-A tw-className tw-=\"\"".toList := by decide

/-- C10 counterexample: the claim that every other-spaced assignment in
every input is left unchanged is false.  The input
`className = "q className  =  "x"` contains exactly one occurrence of the
double-spaced assignment `className  =  "x"`, but the greedy capture of the
match starting at the head of the text overlaps it, and the pipeline output
`className = "tw-q tw-className tw-="x"` contains zero occurrences. -/
theorem c10_counterexample :
    countOcc ("className  =  \"x\"".toList)
        ("className = \"q className  =  \"x\"".toList) = 1 ∧
      countOcc ("className  =  \"x\"".toList)
        (pipeline ("className = \"q className  =  \"x\"".toList)) = 0 ∧
      pipeline ("className = \"q className  =  \"x\"".toList)
        = "className = \"tw-q tw-className tw-=\"x\"".toList := by decide

end FixTw
